import Mathlib

/-!
# netutil: a verification development

Shallow embedding of the helper functions of `netutil.c` and `ioutil.c`
(LP64 data model: `int` is 32 bits, `long`, `size_t` and `ssize_t` are 64 bits).

Platform calls (`send`, `fread`, `fgetc`, `fscanf`, `snprintf`, `inet_pton`,
the `FD_*` operations) are modelled by their POSIX / ISO C contracts; the
functions of the repository are transcribed statement by statement.
-/

namespace Netutil

/-! ## Machine integers -/

/-- The largest `size_t`. -/
def SIZE_MAX : Nat := 2 ^ 64 - 1

/-- The largest `int`. -/
def INT_MAX : Int := 2 ^ 31 - 1

/-- The smallest `long`. -/
def LONG_MIN : Int := -(2 ^ 63)

/-- The largest `long`. -/
def LONG_MAX : Int := 2 ^ 63 - 1

/-- Conversion of an integer value to `size_t`: reduction modulo `2 ^ 64`. -/
def to_size_t (z : Int) : Nat := (z % 2 ^ 64).toNat

/-- Conversion of a wider integer value to `int`: two's-complement wrap-around
to 32 bits (what gcc and clang do for the out-of-range case). -/
def to_int (z : Int) : Int := (z + 2 ^ 31) % 2 ^ 32 - 2 ^ 31

/-- Arithmetic on `long` taken modulo `2 ^ 64` (two's complement). -/
def wrap_long (z : Int) : Int := (z + 2 ^ 63) % 2 ^ 64 - 2 ^ 63

/-! ## Decimal text -/

/-- The digit loop of the C library's integer conversion: the lowest digit is
produced first and put in front of the digits produced so far, until the
quotient is zero.  `fuel` bounds the number of digits. -/
def dec_digits_aux : Nat → Nat → List Nat → List Nat
  | 0, _, acc => acc
  | fuel + 1, m, acc =>
    if m / 10 = 0 then (48 + m % 10) :: acc
    else dec_digits_aux fuel (m / 10) ((48 + m % 10) :: acc)

/-- ASCII decimal digits of a natural number (`"0"` for zero); a number `m`
has at most `m + 1` digits. -/
def dec_digits (m : Nat) : List Nat := dec_digits_aux (m + 1) m []

/-- The text `printf("%ld", n)` produces for a `long` `n`. -/
def fmt_ld (n : Int) : List Nat :=
  (if n < 0 then [45] else []) ++ dec_digits n.natAbs

/-- ASCII bytes of a string literal. -/
def bytes (s : String) : List Nat := s.toList.map Char.toNat

/-! ## `ioutil.c`: `clear_stdin`, `prompt_int` -/

/-- The standard streams: the unread bytes of `stdin` (end-of-file after the
last one) and the bytes written to `stdout`. -/
structure Stdio where
  stdin : List Nat
  stdout : List Nat
deriving DecidableEq

/-- The function `clear_stdin`: `while ((c = fgetc(stdin)) != '\n' && c != EOF);`.
On an exhausted stream `fgetc` returns `EOF` and the loop ends; otherwise the
byte `c` is consumed and the loop ends when it is `'\n'` (10). -/
def clear_stdin : List Nat → List Nat
  | [] => []
  | c :: rest => if c = 10 then rest else clear_stdin rest

/-- The C `isspace` in the "C" locale. -/
def isspace (c : Nat) : Bool := c == 32 || (9 ≤ c && c ≤ 13)

/-- The C `isdigit`. -/
def isdigit (c : Nat) : Bool := 48 ≤ c && c ≤ 57

/-- Value of a run of ASCII digits. -/
def digits_value (ds : List Nat) : Nat := ds.foldl (fun acc d => acc * 10 + (d - 48)) 0

/-- Clamping of a converted value to the range of `long`, as `strtol` does. -/
def clamp_long (z : Int) : Int :=
  if z < LONG_MIN then LONG_MIN else if z > LONG_MAX then LONG_MAX else z

/-- The call `fscanf(stdin, "%ld", &ret)`: white space is skipped, then an
optional sign and the longest run of digits are consumed.  With at least one
digit the converted value is stored; on end-of-file or when no digit follows,
`ret` keeps its value.  Returns the value of `ret` after the call and the
unread input. -/
def fscanf_ld (ret : Int) (inp : List Nat) : Int × List Nat :=
  match inp.dropWhile isspace with
  | [] => (ret, [])
  | c :: rest =>
    let neg := c == 45
    let body := if c == 45 || c == 43 then rest else c :: rest
    let ds := body.takeWhile isdigit
    if ds.isEmpty then (ret, body)
    else
      let v : Int := digits_value ds
      (clamp_long (if neg then -v else v), body.dropWhile isdigit)

/-- The text of `"Invalid range (%ld to %ld).\n"`. -/
def invalid_range (low up : Int) : List Nat :=
  bytes "Invalid range (" ++ fmt_ld low ++ bytes " to " ++ fmt_ld up ++ bytes ").\n"

/-- The loop `while (ret < low || ret > up)` of `prompt_int`; `none` means
the loop is still running after `fuel` iterations. -/
def prompt_int_loop (low up : Int) : Nat → Int → Stdio → Option (Int × Stdio)
  | 0, ret, io => if ret < low ∨ ret > up then none else some (ret, io)
  | fuel + 1, ret, io =>
    if ret < low ∨ ret > up then
      let out := io.stdout ++ invalid_range low up
      let inp := clear_stdin io.stdin
      let scanned := fscanf_ld ret inp
      prompt_int_loop low up fuel scanned.1 ⟨scanned.2, out⟩
    else some (ret, io)

/-- The function `prompt_int(msg, low, up)`, with `long` arithmetic taken
modulo `2 ^ 64`. -/
def prompt_int (fuel : Nat) (msg : List Nat) (low up : Int) (io : Stdio) :
    Option (Int × Stdio) :=
  let up1 := if up < low then wrap_long (up + low) else up
  let low1 := if up < low then wrap_long (up1 - low) else low
  let up2 := if up < low then wrap_long (up1 - low1) else up1
  let ret := wrap_long (low1 - 1)
  let scanned := fscanf_ld ret io.stdin
  prompt_int_loop low1 up2 fuel scanned.1 ⟨scanned.2, io.stdout ++ msg⟩

/-! ## Descriptor sets: `newfds`, `clrfds` -/

/-- Number of descriptors an `fd_set` can hold. -/
def FD_SETSIZE : Nat := 1024

/-- The platform type `fd_set`: `FD_SETSIZE / 64 = 16` words of 64 bits,
descriptor `d` being bit `d % 64` of word `d / 64`. -/
structure fd_set where
  fds_bits : List Nat
deriving DecidableEq

/-- The result of `FD_ZERO`: all bits clear. -/
def FD_ZERO : fd_set := ⟨List.replicate 16 0⟩

/-- The operation `FD_SET(d, &s)`.  POSIX leaves it undefined for `d` outside
`[0, FD_SETSIZE)`; here such a call leaves the set as it is. -/
def FD_SET (d : Int) (s : fd_set) : fd_set :=
  if 0 ≤ d ∧ d < (FD_SETSIZE : Int) then
    ⟨s.fds_bits.set (d.toNat / 64)
      (s.fds_bits.getD (d.toNat / 64) 0 ||| (1 <<< (d.toNat % 64)))⟩
  else s

/-- The test `FD_ISSET(d, &s)`. -/
def FD_ISSET (d : Int) (s : fd_set) : Bool :=
  decide (0 ≤ d ∧ d < (FD_SETSIZE : Int)) &&
    (s.fds_bits.getD (d.toNat / 64) 0).testBit (d.toNat % 64)

/-- The loop `for (size_t i = 0; i < n; i++) FD_SET(fds[i], set);`. -/
def set_all (fds : List Int) (n : Nat) (set : fd_set) : fd_set :=
  (List.range n).foldl (fun acc i => FD_SET (fds.getD i 0) acc) set

/-- The function `newfds(fds, n)`; `fds = none` is the `NULL` pointer. -/
def newfds (fds : Option (List Int)) (n : Nat) : fd_set :=
  match fds with
  | none => FD_ZERO
  | some a => set_all a n FD_ZERO

/-- The function `clrfds(fdset, fds, n)`: the set `*fdset` after the call
(`none` when `fdset` is `NULL`). -/
def clrfds (fdset : Option fd_set) (fds : Option (List Int)) (n : Nat) : Option fd_set :=
  match fdset, fds with
  | some s, some a => some (set_all a n s)
  | s, _ => s

/-! ## Address validation: `valid4`, `valid6` -/

/-- Address family constant of IPv4. -/
def AF_INET : Int := 2

/-- Address family constant of IPv6. -/
def AF_INET6 : Int := 10

/-- Scanner state of the dotted-quad parser: whether the current octet has a
digit yet, the number of octets started, and the value of the current octet. -/
structure Pton4State where
  saw_digit : Bool
  octets : Nat
  cur : Nat
deriving DecidableEq

/-- One character of the dotted-quad parser behind `inet_pton(AF_INET, ..)`
(the 4.4BSD routine used by the C libraries): a digit extends the current
octet (no leading zero, value at most 255, at most four octets), a dot after a
digit starts the next octet, anything else is rejected (`none`). -/
def inet_pton4_step (st : Pton4State) (ch : Nat) : Option Pton4State :=
  if 48 ≤ ch ∧ ch ≤ 57 then
    if st.saw_digit = true ∧ st.cur = 0 then none
    else if st.cur * 10 + (ch - 48) > 255 then none
    else if st.saw_digit = false then
      if st.octets + 1 > 4 then none
      else some ⟨true, st.octets + 1, st.cur * 10 + (ch - 48)⟩
    else some ⟨true, st.octets, st.cur * 10 + (ch - 48)⟩
  else if ch = 46 ∧ st.saw_digit = true then
    if st.octets = 4 then none else some ⟨false, st.octets, 0⟩
  else none

/-- Run of the dotted-quad parser over the characters of the string. -/
def inet_pton4_run : List Nat → Pton4State → Option Pton4State
  | [], st => some st
  | ch :: rest, st =>
    match inet_pton4_step st ch with
    | none => none
    | some st2 => inet_pton4_run rest st2

/-- Result of the dotted-quad parser: 1 when the whole string is four octets,
0 otherwise. -/
def inet_pton4 (src : List Nat) : Int :=
  match inet_pton4_run src ⟨false, 0, 0⟩ with
  | none => 0
  | some st => if st.octets < 4 then 0 else 1

/-- The platform call `inet_pton(af, src, dst)`: 1 for a valid address of the
family `af`, 0 for an invalid one, -1 for an unsupported family.  The IPv6
parser of the platform is the parameter `pton6`. -/
def inet_pton (pton6 : List Nat → Int) (af : Int) (src : List Nat) : Int :=
  if af = AF_INET then inet_pton4 src
  else if af = AF_INET6 then pton6 src
  else -1

/-- The function `valid4(ip)`. -/
def valid4 (pton6 : List Nat → Int) (ip : List Nat) : Bool :=
  inet_pton pton6 AF_INET ip == 1

/-- The function `valid6(ip)`: the source passes `AF_INET` to `inet_pton`. -/
def valid6 (pton6 : List Nat → Int) (ip : List Nat) : Bool :=
  inet_pton pton6 AF_INET ip == 1

/-! ## `sendall` -/

/-- One call of the platform `send(sockfd, buf + off, len, 0)` together with
the `ssize_t` it returned. -/
structure SendCall where
  off : Nat
  len : Nat
  res : Int
deriving DecidableEq

/-- Outcome of a `sendall` call: the returned `size_t`, the `send` calls it
made (in order) and the number of `send` calls made on the socket so far. -/
structure SendallResult where
  ret : Nat
  calls : List SendCall
  next : Nat
deriving DecidableEq

/-- The `while (curr < n)` loop of `sendall`.  `send k len` is what the `k`-th
`send` call on the socket returns when asked to transmit `len` bytes.  The
result is stored in the `int` variable `sendres`, and `curr += sendres`,
`left -= sendres` are `size_t` arithmetic.  `none` means the loop is still
running after `fuel` iterations. -/
def sendall_loop (send : Nat → Nat → Int) (n : Nat) :
    Nat → Nat → Nat → Nat → Option SendallResult
  | 0, k, curr, _ => if curr < n then none else some ⟨curr, [], k⟩
  | fuel + 1, k, curr, left =>
    if curr < n then
      let r := send k left
      let sendres := to_int r
      if sendres = -1 then
        some ⟨SIZE_MAX, [⟨curr, left, r⟩], k + 1⟩
      else
        match sendall_loop send n fuel (k + 1)
            (to_size_t (curr + sendres)) (to_size_t (left - sendres)) with
        | none => none
        | some out => some ⟨out.ret, ⟨curr, left, r⟩ :: out.calls, out.next⟩
    else some ⟨curr, [], k⟩

/-- The function `sendall(sockfd, buf, n)`; `buf = none` is the `NULL` pointer
and `k` is the number of `send` calls already made on the socket. -/
def sendall (send : Nat → Nat → Int) (fuel k : Nat) (buf : Option (List Nat))
    (n : Nat) : Option SendallResult :=
  match buf with
  | none => some ⟨SIZE_MAX, [], k⟩
  | some _ => sendall_loop send n fuel k 0 n

/-! ## `sendlong`, `senddouble`, `sendfs` -/

/-- The call `snprintf(buf, size, fmt, ..)` where `text` is the complete
formatted text: at most `size - 1` bytes of it are stored, followed by a NUL
byte, the rest of the buffer keeps its contents; the return value is the length
of the complete text. -/
def snprintf (buf : List Nat) (size : Nat) (text : List Nat) : List Nat × Int :=
  if size = 0 then (buf, (text.length : Int))
  else
    ((text.take (size - 1)) ++ [0] ++ buf.drop ((text.take (size - 1)).length + 1),
      (text.length : Int))

/-- An uninitialised local array `char a[size]`: `junk i` is the byte found
at index `i`. -/
def local_array (junk : Nat → Nat) (size : Nat) : List Nat := (List.range size).map junk

/-- A finite `double`: the value is `(-1) ^ neg * m * 2 ^ e`. -/
structure Double where
  neg : Bool
  m : Nat
  e : Int
deriving DecidableEq

/-- The representable finite values of IEEE 754 binary64. -/
def Double.finite (d : Double) : Prop := d.m < 2 ^ 53 ∧ -1074 ≤ d.e ∧ d.e ≤ 971

/-- The absolute value times `10 ^ 6`, rounded to the nearest integer, ties to
even: the digits `printf("%lf")` shows. -/
def scaled6 (d : Double) : Nat :=
  if 0 ≤ d.e then d.m * 2 ^ d.e.toNat * 10 ^ 6
  else
    let q := d.m * 10 ^ 6 / 2 ^ (-d.e).toNat
    let r := d.m * 10 ^ 6 % 2 ^ (-d.e).toNat
    if 2 * r > 2 ^ (-d.e).toNat ∨ (2 * r = 2 ^ (-d.e).toNat ∧ q % 2 = 1) then q + 1 else q

/-- The text `printf("%lf", d)` produces: sign, integer digits, a point and
six fractional digits. -/
def fmt_lf (d : Double) : List Nat :=
  (if d.neg then [45] else []) ++ dec_digits (scaled6 d / 10 ^ 6) ++ [46] ++
    List.replicate (6 - (dec_digits (scaled6 d % 10 ^ 6)).length) 48 ++
    dec_digits (scaled6 d % 10 ^ 6)

/-- The arguments `(num, res + 1)` that `senddouble` passes to `sendall`, or
`none` when `res > 0` fails and `sendall` is not called. -/
def senddouble_args (junk : Nat → Nat) (d : Double) : Option (List Nat × Nat) :=
  let out := snprintf (local_array junk 50) 50 (fmt_lf d)
  if out.2 > 0 then some (out.1, to_size_t (out.2 + 1)) else none

/-- The function `senddouble(sockfd, n)`. -/
def senddouble (send : Nat → Nat → Int) (fuel k : Nat) (junk : Nat → Nat) (d : Double) :
    Option SendallResult :=
  match senddouble_args junk d with
  | some args => sendall send fuel k (some args.1) args.2
  | none => some ⟨SIZE_MAX, [], k⟩

/-- Size per chunk when reading a file. -/
def FCHUNKSIZE : Nat := 1024

/-- One call `sendall(sockfd, block, fres)` made by `sendfs`: the contents of
`block` and the count handed over, the number of `send` calls made on the
socket before it, and what the call produced. -/
structure SendallRecord where
  buf : List Nat
  n : Nat
  start : Nat
  out : SendallResult
deriving DecidableEq

/-- Outcome of a `sendfs` call: the returned `size_t`, its `sendall` calls in
order, and the number of `send` calls made on the socket so far. -/
structure SendfsResult where
  ret : Nat
  chunks : List SendallRecord
  next : Nat
deriving DecidableEq

/-- The loop of `sendfs`.  `fread(block, 1, sizeof block, fs)` on a stream
without read errors stores the next `min(1024, remaining)` bytes at the start
of `block` and returns their number.  `fuel` is handed to every `sendall`,
the first `Nat` bounds the iterations of this loop. -/
def sendfs_loop (send : Nat → Nat → Int) (fuel : Nat) :
    Nat → Nat → Nat → List Nat → List Nat → Option SendfsResult
  | 0, k, sent, _, fs => if (fs.take FCHUNKSIZE).length > 0 then none else some ⟨sent, [], k⟩
  | g + 1, k, sent, block, fs =>
    let fres := (fs.take FCHUNKSIZE).length
    if fres > 0 then
      let block1 := fs.take FCHUNKSIZE ++ block.drop fres
      match sendall send fuel k (some block1) fres with
      | none => none
      | some out =>
        if out.ret = SIZE_MAX then some ⟨SIZE_MAX, [⟨block1, fres, k, out⟩], out.next⟩
        else
          match sendfs_loop send fuel g out.next ((sent + out.ret) % 2 ^ 64) block1
              (fs.drop FCHUNKSIZE) with
          | none => none
          | some r => some ⟨r.ret, ⟨block1, fres, k, out⟩ :: r.chunks, r.next⟩
    else some ⟨sent, [], k⟩

/-- The function `sendfs(sockfd, fs)`; `fs = none` is the `NULL` stream,
otherwise the bytes of the stream that are still to be read. -/
def sendfs (send : Nat → Nat → Int) (fuel k : Nat) (junk : Nat → Nat)
    (fs : Option (List Nat)) : Option SendfsResult :=
  match fs with
  | none => some ⟨SIZE_MAX, [], k⟩
  | some content => sendfs_loop send fuel fuel k 0 (local_array junk FCHUNKSIZE) content

/-- The bytes of `buf` that the recorded `send` calls accepted, in call order. -/
def sentBytes (buf : List Nat) (calls : List SendCall) : List Nat :=
  calls.flatMap (fun c => (buf.drop c.off).take c.res.toNat)

/-- A `send` that never fails: asked for `len > 0` bytes it transmits at
least one and at most `len` of them. -/
def SendOK (send : Nat → Nat → Int) : Prop :=
  ∀ k len : Nat, 0 < len → 1 ≤ send k len ∧ send k len ≤ (len : Int)

/-- Well-formed results of `send`: `-1`, or a count between 0 and the
requested length that also fits the `int` variable it is stored in. -/
def SendSane (send : Nat → Nat → Int) : Prop :=
  ∀ k len : Nat, send k len = -1 ∨
    (0 ≤ send k len ∧ send k len ≤ (len : Int) ∧ send k len ≤ INT_MAX)

/-- A `send` that transmits everything it is given in one call. -/
def sendWhole : Nat → Nat → Int := fun _ len => (len : Int)

/-- The recorded `send` calls start at offset `pos`, each one is handed the
whole rest of the `n`-byte buffer (`buf + pos`, `n - pos`), accepts between one
byte and that rest, and the next one starts right after the accepted bytes;
after the last call the position is `n`. -/
def Chained (n : Nat) : Nat → List SendCall → Prop
  | pos, [] => pos = n
  | pos, c :: cs =>
    c.off = pos ∧ c.len = n - pos ∧ 1 ≤ c.res ∧ c.res ≤ (c.len : Int) ∧
      Chained n (pos + c.res.toNat) cs

/-- The recorded `sendall` calls use the socket one after the other: the
first starts after `k` earlier `send` calls, each next one where the previous
one left the socket, and the last one leaves it at `next`. -/
def Threaded : Nat → List SendallRecord → Nat → Prop
  | k, [], next => next = k
  | k, c :: cs, next => c.start = k ∧ Threaded c.out.next cs next

/-- The chunk sizes of a stream of `L` bytes read `FCHUNKSIZE` bytes at a
time: full chunks, then the remainder if there is one. -/
def chunk_sizes (L : Nat) : List Nat :=
  List.replicate (L / FCHUNKSIZE) FCHUNKSIZE ++
    (if L % FCHUNKSIZE = 0 then [] else [L % FCHUNKSIZE])

/-- A `send` that accepts at most `cap` bytes per call. -/
def sendAtMost (cap : Nat) : Nat → Nat → Int :=
  fun _ len => if len ≤ cap then (len : Int) else (cap : Int)

/-! ### Facts about the conversions -/

theorem to_int_of_range (z : Int) (h0 : -(2 ^ 31) ≤ z) (h1 : z ≤ INT_MAX) : to_int z = z := by
  unfold to_int
  unfold INT_MAX at h1
  omega

theorem to_size_t_of_range (z : Int) (h0 : 0 ≤ z) (h1 : z ≤ (SIZE_MAX : Int)) :
    to_size_t z = z.toNat := by
  unfold to_size_t
  have h2 : (SIZE_MAX : Int) = 2 ^ 64 - 1 := by decide
  rw [h2] at h1
  have : z % 2 ^ 64 = z := by omega
  rw [this]

/-! ### `sendall` on a well-behaved `send` -/

theorem sendall_loop_ok (send : Nat → Nat → Int) (n : Nat) (hn : n ≤ SIZE_MAX)
    (hs : ∀ k len : Nat, 0 < len → len ≤ n →
      1 ≤ send k len ∧ send k len ≤ (len : Int) ∧ send k len ≤ INT_MAX) :
    ∀ fuel k curr left : Nat, curr + left = n → left ≤ fuel →
      ∃ calls, sendall_loop send n fuel k curr left = some ⟨n, calls, k + calls.length⟩ ∧
        Chained n curr calls ∧ calls.length ≤ left := by
  intro fuel
  induction fuel with
  | zero =>
    intro k curr left h hl
    have hl0 : left = 0 := by omega
    subst hl0
    have hc : curr = n := by omega
    subst hc
    exact ⟨[], by simp [sendall_loop], by simp [Chained], by simp⟩
  | succ fuel ih =>
    intro k curr left h hl
    by_cases hlt : curr < n
    · have hpos : 0 < left := by omega
      obtain ⟨h1, h2, h3⟩ := hs k left hpos (by omega)
      have hti : to_int (send k left) = send k left := to_int_of_range _ (by omega) h3
      have hne : ¬ (send k left = -1) := by omega
      have hsm : (SIZE_MAX : Int) = 2 ^ 64 - 1 := by decide
      have hnI : (n : Int) ≤ 2 ^ 64 - 1 := by
        have : ((n : Nat) : Int) ≤ ((SIZE_MAX : Nat) : Int) := by exact_mod_cast hn
        omega
      have hc : to_size_t ((curr : Int) + send k left) = curr + (send k left).toNat := by
        rw [to_size_t_of_range _ (by omega) (by omega)]
        omega
      have hl2 : to_size_t ((left : Int) - send k left) = left - (send k left).toNat := by
        rw [to_size_t_of_range _ (by omega) (by omega)]
        omega
      obtain ⟨calls, hrun, hch, hlen⟩ := ih (k + 1) (curr + (send k left).toNat)
        (left - (send k left).toNat) (by omega) (by omega)
      refine ⟨⟨curr, left, send k left⟩ :: calls, ?_, ?_, ?_⟩
      · simp only [sendall_loop, hlt, if_true, hti, hne, if_false, hc, hl2, hrun]
        simp only [List.length_cons]
        have : k + 1 + calls.length = k + (calls.length + 1) := by omega
        rw [this]
      · exact ⟨rfl, by simp only; omega, h1, h2, hch⟩
      · simp only [List.length_cons]
        omega
    · have hc : curr = n := by omega
      subst hc
      exact ⟨[], by simp [sendall_loop], by simp [Chained], by simp⟩

theorem sentBytes_of_chained (buf : List Nat) (n : Nat) :
    ∀ (calls : List SendCall) (pos : Nat), pos ≤ n → Chained n pos calls →
      sentBytes buf calls = (buf.drop pos).take (n - pos) := by
  intro calls
  induction calls with
  | nil =>
    intro pos _ h
    simp only [Chained] at h
    subst h
    simp [sentBytes]
  | cons c cs ih =>
    intro pos hp h
    obtain ⟨h1, h2, h3, h4, h5⟩ := h
    have hr : pos + c.res.toNat ≤ n := by omega
    have := ih (pos + c.res.toNat) hr h5
    simp only [sentBytes, List.flatMap_cons] at this ⊢
    rw [this, h1]
    have hsplit : n - pos = c.res.toNat + (n - (pos + c.res.toNat)) := by omega
    rw [hsplit, List.take_add, List.drop_drop]

theorem sendWhole_ok : SendOK sendWhole := by
  intro k len h
  simp only [sendWhole]
  omega

/-- On a `send` that never fails and never reports more than `INT_MAX` bytes
in one call, `sendall` on a non-`NULL` buffer returns `n`, and its `send`
calls are chained over `buf[0..n)`: nothing skipped, nothing sent twice. -/
theorem sendall_ok_bounded (send : Nat → Nat → Int) (buf : List Nat) (n fuel k : Nat)
    (hn : n ≤ SIZE_MAX) (hf : n ≤ fuel)
    (hs : ∀ k len : Nat, 0 < len → len ≤ n →
      1 ≤ send k len ∧ send k len ≤ (len : Int) ∧ send k len ≤ INT_MAX) :
    ∃ calls, sendall send fuel k (some buf) n = some ⟨n, calls, k + calls.length⟩ ∧
      Chained n 0 calls ∧ sentBytes buf calls = buf.take n := by
  obtain ⟨calls, h1, h2, _⟩ := sendall_loop_ok send n hn hs fuel k 0 n (by omega) hf
  refine ⟨calls, h1, h2, ?_⟩
  rw [sentBytes_of_chained buf n calls 0 (by omega) h2]
  simp

/-- With at most `INT_MAX` bytes to send, any `send` that never fails will do. -/
theorem sendall_ok_small (send : Nat → Nat → Int) (hs : SendOK send) (buf : List Nat)
    (n fuel k : Nat) (hn : (n : Int) ≤ INT_MAX) (hf : n ≤ fuel) :
    ∃ calls, sendall send fuel k (some buf) n = some ⟨n, calls, k + calls.length⟩ ∧
      Chained n 0 calls ∧ sentBytes buf calls = buf.take n := by
  have hn2 : n ≤ SIZE_MAX := by
    have : SIZE_MAX = 18446744073709551615 := by decide
    unfold INT_MAX at hn
    omega
  apply sendall_ok_bounded send buf n fuel k hn2 hf
  intro k len h0 hle
  obtain ⟨h1, h2⟩ := hs k len h0
  refine ⟨h1, h2, ?_⟩
  have : (len : Int) ≤ (n : Int) := by exact_mod_cast hle
  omega

/-- A `NULL` buffer: `SIZE_MAX`, whatever `n` is, and no `send` call. -/
theorem sendall_null (send : Nat → Nat → Int) (fuel k n : Nat) :
    sendall send fuel k none n = some ⟨SIZE_MAX, [], k⟩ := rfl

/-- For `n = 0` the loop body is never entered: `0` is returned, no `send` call. -/
theorem sendall_zero (send : Nat → Nat → Int) (fuel k : Nat) (buf : List Nat) :
    sendall send fuel k (some buf) 0 = some ⟨0, [], k⟩ := by
  cases fuel <;> simp [sendall, sendall_loop]

/-- C1 (defect in the code, evaluated): a non-NULL buffer of `2 ^ 31` bytes and
a `send` that never fails and accepts the whole rest in one call (so the one
result, `2 ^ 31`, lies between 1 and the bytes still left).  The result does
not fit the `int` variable `sendres`, which becomes `-(2 ^ 31)`; `sendall`
returns `2 ^ 64 - 2 ^ 31` instead of `n = 2 ^ 31`. -/
theorem sendall_int_narrowing_wrong_count :
    SendOK sendWhole ∧ 2 ^ 31 ≤ SIZE_MAX ∧
    (∀ fuel : Nat, sendall sendWhole (fuel + 1) 0 (some (List.replicate (2 ^ 31) 0)) (2 ^ 31) =
      some ⟨2 ^ 64 - 2 ^ 31, [⟨0, 2 ^ 31, 2 ^ 31⟩], 1⟩) ∧
    2 ^ 64 - 2 ^ 31 ≠ 2 ^ 31 := by
  refine ⟨sendWhole_ok, by decide, ?_, by decide⟩
  intro fuel
  cases fuel <;> rfl

/-- C2 (defect in the code, evaluated): a non-NULL buffer of `n = 2 ^ 32 - 1`
bytes (`n < SIZE_MAX`) and a `send` that accepts all of it in one call.  No
`send` call returned `-1` (the only result is `2 ^ 32 - 1`), but narrowed to
the `int` variable `sendres` it compares equal to `-1`, and `sendall` returns
`SIZE_MAX`. -/
theorem sendall_int_narrowing_false_error :
    2 ^ 32 - 1 < SIZE_MAX ∧ sendWhole 0 (2 ^ 32 - 1) ≠ -1 ∧
    (∀ fuel : Nat,
      sendall sendWhole (fuel + 1) 0 (some (List.replicate (2 ^ 32 - 1) 0)) (2 ^ 32 - 1) =
        some ⟨SIZE_MAX, [⟨0, 2 ^ 32 - 1, 2 ^ 32 - 1⟩], 1⟩) := by
  refine ⟨by decide, by decide, ?_⟩
  intro fuel
  rfl

/-! ## `clear_stdin` and `prompt_int` -/

theorem clear_stdin_dropWhile (s : List Nat) :
    clear_stdin s = (s.dropWhile (fun c => c != 10)).drop 1 := by
  induction s with
  | nil => rfl
  | cons c rest ih =>
    by_cases h : c = 10
    · subst h
      simp [clear_stdin, List.dropWhile]
    · have hb : (c != 10) = true := by simp [h]
      simp only [clear_stdin, h, if_false, List.dropWhile, hb, ih]

theorem clear_stdin_split (s : List Nat) (h : 10 ∈ s) :
    ∃ pre, 10 ∉ pre ∧ s = pre ++ 10 :: clear_stdin s := by
  induction s with
  | nil => simp at h
  | cons c rest ih =>
    by_cases hc : c = 10
    · subst hc
      exact ⟨[], by simp, by simp [clear_stdin]⟩
    · have hr : 10 ∈ rest := by
        rcases List.mem_cons.mp h with h1 | h1
        · exact absurd h1.symm hc
        · exact h1
      obtain ⟨pre, hp, hs⟩ := ih hr
      refine ⟨c :: pre, ?_, ?_⟩
      · intro hm
        rcases List.mem_cons.mp hm with h1 | h1
        · exact hc h1.symm
        · exact hp h1
      · simp only [clear_stdin, hc, if_false, List.cons_append]
        rw [← hs]

theorem clear_stdin_no_newline (s : List Nat) (h : 10 ∉ s) : clear_stdin s = [] := by
  induction s with
  | nil => rfl
  | cons c rest ih =>
    have hc : c ≠ 10 := fun e => h (by simp [e])
    have hr : 10 ∉ rest := fun e => h (List.mem_cons_of_mem _ e)
    simp [clear_stdin, hc, ih hr]

/-- C9: `clear_stdin` is total on every finite pending input `s`, and the input
left unread is exactly the part of `s` after its first `'\n'` (byte 10): if `s`
contains a newline then `s` is a newline-free part, the newline, and the unread
rest; otherwise nothing is left unread. -/
theorem clear_stdin_discards_line (s : List Nat) :
    clear_stdin s = (s.dropWhile (fun c => c != 10)).drop 1 ∧
    (if 10 ∈ s then ∃ pre, 10 ∉ pre ∧ s = pre ++ 10 :: clear_stdin s
     else clear_stdin s = []) := by
  refine ⟨clear_stdin_dropWhile s, ?_⟩
  split
  · next h => exact clear_stdin_split s h
  · next h => exact clear_stdin_no_newline s h

theorem prompt_int_loop_range (low up : Int) :
    ∀ (fuel : Nat) (ret : Int) (io : Stdio) (r : Int) (io2 : Stdio),
      prompt_int_loop low up fuel ret io = some (r, io2) → low ≤ r ∧ r ≤ up := by
  intro fuel
  induction fuel with
  | zero =>
    intro ret io r io2 h
    simp only [prompt_int_loop] at h
    split at h
    · simp at h
    · next hc =>
      simp only [Option.some.injEq, Prod.mk.injEq] at h
      obtain ⟨h1, _⟩ := h
      subst h1
      omega
  | succ fuel ih =>
    intro ret io r io2 h
    simp only [prompt_int_loop] at h
    split at h
    · exact ih _ _ _ _ h
    · next hc =>
      simp only [Option.some.injEq, Prod.mk.injEq] at h
      obtain ⟨h1, _⟩ := h
      subst h1
      omega

/-- C4: for all `long` values `low` and `up` (arithmetic modulo `2 ^ 64`) and
every content of standard input, whenever `prompt_int` returns a value `r`,
that value lies between the smaller and the larger of the two bounds. -/
theorem prompt_int_within_bounds (fuel : Nat) (msg : List Nat) (low up : Int) (io : Stdio)
    (r : Int) (io2 : Stdio)
    (hl : LONG_MIN ≤ low ∧ low ≤ LONG_MAX) (hu : LONG_MIN ≤ up ∧ up ≤ LONG_MAX)
    (h : prompt_int fuel msg low up io = some (r, io2)) :
    min low up ≤ r ∧ r ≤ max low up := by
  unfold LONG_MIN LONG_MAX at hl hu
  simp only [prompt_int] at h
  have hr := prompt_int_loop_range _ _ _ _ _ _ _ h
  by_cases hlt : up < low
  · simp only [hlt, if_true] at hr
    have e1 : wrap_long (wrap_long (up + low) - low) = up := by
      unfold wrap_long
      omega
    rw [e1] at hr
    have e2 : wrap_long (wrap_long (up + low) - up) = low := by
      unfold wrap_long
      omega
    rw [e2] at hr
    rw [min_eq_right (le_of_lt hlt), max_eq_left (le_of_lt hlt)]
    exact hr
  · simp only [hlt, if_false] at hr
    have hle : low ≤ up := by omega
    rw [min_eq_left hle, max_eq_right hle]
    exact hr

/-- Witness for C4: bounds given in reverse order (10, 1), input `50`, a
malformed line, then `7`: the call returns 7, which lies in `[1, 10]`. -/
theorem prompt_int_within_bounds_witness :
    prompt_int 3 [] 10 1 ⟨bytes "50\nx\n7\n", []⟩ =
        some (7, ⟨bytes "\n", invalid_range 1 10 ++ invalid_range 1 10⟩) ∧
      min (10 : Int) 1 ≤ 7 ∧ (7 : Int) ≤ max 10 1 :=
  ⟨by decide,
    prompt_int_within_bounds 3 [] 10 1 ⟨bytes "50\nx\n7\n", []⟩ 7
      ⟨bytes "\n", invalid_range 1 10 ++ invalid_range 1 10⟩ (by decide) (by decide) (by decide)⟩

/-! ## `newfds` and `clrfds` -/

theorem FD_SET_length (d : Int) (s : fd_set) :
    (FD_SET d s).fds_bits.length = s.fds_bits.length := by
  unfold FD_SET
  split <;> simp

theorem set_all_length (fds : List Int) (n : Nat) (s : fd_set) :
    (set_all fds n s).fds_bits.length = s.fds_bits.length := by
  induction n with
  | zero => simp [set_all]
  | succ n ih =>
    simp only [set_all, List.range_succ, List.foldl_append, List.foldl_cons, List.foldl_nil]
    rw [FD_SET_length]
    exact ih

theorem word_set_testBit (w : List Nat) (hw : w.length = 16) (dn en : Nat)
    (hd : dn < 1024) (he : en < 1024) :
    ((w.set (en / 64) (w.getD (en / 64) 0 ||| (1 <<< (en % 64)))).getD (dn / 64) 0).testBit
        (dn % 64) =
      (decide (dn = en) || (w.getD (dn / 64) 0).testBit (dn % 64)) := by
  by_cases hq : en / 64 = dn / 64
  · have hlt : dn / 64 < w.length := by omega
    rw [hq]
    simp only [List.getD_eq_getElem?_getD, List.getElem?_set, hlt, if_true, Option.getD_some,
      Nat.testBit_or, Nat.one_shiftLeft, Nat.testBit_two_pow]
    have : decide (en % 64 = dn % 64) = decide (dn = en) := by
      by_cases h : dn = en
      · subst h
        simp
      · have : ¬ (en % 64 = dn % 64) := by omega
        simp [h, this]
    rw [this, Bool.or_comm]
  · have hne : ¬ (dn = en) := fun h => hq (by rw [h])
    simp only [List.getD_eq_getElem?_getD, List.getElem?_set_ne hq, hne, decide_False,
      Bool.false_or]

theorem FD_ISSET_FD_SET (s : fd_set) (hs : s.fds_bits.length = 16) (d e : Int)
    (hd : 0 ≤ d ∧ d < (FD_SETSIZE : Int)) (he : 0 ≤ e ∧ e < (FD_SETSIZE : Int)) :
    FD_ISSET d (FD_SET e s) = (decide (d = e) || FD_ISSET d s) := by
  have hsz : (FD_SETSIZE : Int) = 1024 := by decide
  rw [hsz] at hd he
  unfold FD_ISSET FD_SET
  rw [hsz]
  simp only [hd, he, and_self, if_true, decide_True, Bool.true_and]
  rw [word_set_testBit s.fds_bits hs d.toNat e.toNat (by omega) (by omega)]
  congr 1
  by_cases h : d = e
  · subst h
    simp
  · have : ¬ (d.toNat = e.toNat) := by omega
    simp [h, this]

theorem replicate_zero_getD (m k : Nat) : (List.replicate m 0).getD k 0 = 0 := by
  rw [List.getD_eq_getElem?_getD, List.getElem?_replicate]
  split <;> rfl

theorem FD_ISSET_FD_ZERO (d : Int) : FD_ISSET d FD_ZERO = false := by
  unfold FD_ISSET FD_ZERO
  rw [replicate_zero_getD]
  simp

theorem FD_ISSET_set_all (fds : List Int) (d : Int) (hd : 0 ≤ d ∧ d < (FD_SETSIZE : Int)) :
    ∀ (n : Nat) (s : fd_set), s.fds_bits.length = 16 →
      (∀ i : Nat, i < n → 0 ≤ fds.getD i 0 ∧ fds.getD i 0 < (FD_SETSIZE : Int)) →
      (FD_ISSET d (set_all fds n s) = true ↔
        FD_ISSET d s = true ∨ ∃ i : Nat, i < n ∧ fds.getD i 0 = d) := by
  intro n
  induction n with
  | zero =>
    intro s _ _
    simp [set_all]
  | succ n ih =>
    intro s hs hr
    have hstep : set_all fds (n + 1) s = FD_SET (fds.getD n 0) (set_all fds n s) := by
      simp only [set_all, List.range_succ, List.foldl_append, List.foldl_cons, List.foldl_nil]
    have hlen : (set_all fds n s).fds_bits.length = 16 := by
      rw [set_all_length]
      exact hs
    rw [hstep, FD_ISSET_FD_SET _ hlen d _ hd (hr n (by omega))]
    have ih2 := ih s hs (fun i hi => hr i (by omega))
    simp only [Bool.or_eq_true, decide_eq_true_eq, ih2]
    constructor
    · rintro (h | h | ⟨i, hi, h⟩)
      · exact Or.inr ⟨n, by omega, h.symm⟩
      · exact Or.inl h
      · exact Or.inr ⟨i, by omega, h⟩
    · rintro (h | ⟨i, hi, h⟩)
      · exact Or.inr (Or.inl h)
      · by_cases hin : i = n
        · subst hin
          exact Or.inl h.symm
        · exact Or.inr (Or.inr ⟨i, by omega, h⟩)

theorem exists_getD_iff_mem_take (fds : List Int) (n : Nat) (hn : n ≤ fds.length) (d : Int) :
    (∃ i : Nat, i < n ∧ fds.getD i 0 = d) ↔ d ∈ fds.take n := by
  rw [List.mem_take_iff_getElem]
  constructor
  · rintro ⟨i, hi, h⟩
    have hl : i < fds.length := by omega
    refine ⟨i, by omega, ?_⟩
    rw [← h, List.getD_eq_getElem fds 0 hl]
  · rintro ⟨i, hi, h⟩
    have hl : i < fds.length := by omega
    refine ⟨i, by omega, ?_⟩
    rw [← h, List.getD_eq_getElem fds 0 hl]

/-- C5: for an array `fds` of (at least) `n` descriptors, the first `n` of them
in `[0, FD_SETSIZE)`, and every descriptor `d` in that range, `d` is a member
of `newfds(fds, n)` exactly when `d` is one of `fds[0], ..., fds[n-1]`; and the
set is empty when `fds` is `NULL` or `n` is 0. -/
theorem newfds_holds_exactly (fds : List Int) (n : Nat) (d : Int)
    (hn : n ≤ fds.length)
    (hr : ∀ x ∈ fds.take n, 0 ≤ x ∧ x < (FD_SETSIZE : Int))
    (hd : 0 ≤ d ∧ d < (FD_SETSIZE : Int)) :
    (FD_ISSET d (newfds (some fds) n) = true ↔ d ∈ fds.take n) ∧
      FD_ISSET d (newfds none n) = false ∧
      FD_ISSET d (newfds (some fds) 0) = false := by
  refine ⟨?_, FD_ISSET_FD_ZERO d, ?_⟩
  · have hr2 : ∀ i : Nat, i < n → 0 ≤ fds.getD i 0 ∧ fds.getD i 0 < (FD_SETSIZE : Int) :=
      fun i hi => hr _ ((exists_getD_iff_mem_take fds n hn _).mp ⟨i, hi, rfl⟩)
    have h := FD_ISSET_set_all fds d hd n FD_ZERO (by decide) hr2
    simp only [FD_ISSET_FD_ZERO, Bool.false_eq_true, false_or] at h
    rw [← exists_getD_iff_mem_take fds n hn d]
    exact h
  · simp only [newfds, set_all, List.range_zero, List.foldl_nil]
    exact FD_ISSET_FD_ZERO d

/-- Witness for C5: the array `[3, 70, 3, 1023]` with `n = 3`; descriptor 70 is
among the first three entries and is a member of the set. -/
theorem newfds_holds_exactly_witness :
    (FD_ISSET 70 (newfds (some [3, 70, 3, 1023]) 3) = true ↔
        (70 : Int) ∈ [3, 70, 3, 1023].take 3) ∧
      FD_ISSET 70 (newfds none 3) = false ∧
      FD_ISSET 70 (newfds (some [3, 70, 3, 1023]) 0) = false :=
  newfds_holds_exactly [3, 70, 3, 1023] 3 70 (by decide) (by decide) (by decide)

/-- C6 (defect in the code, evaluated): `clrfds` only performs `FD_SET`; it
never clears the set it is given.  Starting from the set that holds descriptor
5 and calling `clrfds` with the array `[3]`, descriptor 5 (not among `fds`) is
still a member afterwards, and the set differs from `newfds([3], 1)`. -/
theorem clrfds_keeps_old_descriptors :
    FD_ISSET 5 (FD_SET 5 FD_ZERO) = true ∧
    (clrfds (some (FD_SET 5 FD_ZERO)) (some [3]) 1).map (FD_ISSET 5) = some true ∧
    (clrfds (some (FD_SET 5 FD_ZERO)) (some [3]) 1).map (FD_ISSET 3) = some true ∧
    FD_ISSET 5 (newfds (some [3]) 1) = false ∧
    clrfds (some (FD_SET 5 FD_ZERO)) (some [3]) 1 ≠ some (newfds (some [3]) 1) := by
  decide

/-! ## `valid6` -/

/-- As written, `valid6` is the same function as `valid4`. -/
theorem valid6_eq_valid4 (pton6 : List Nat → Int) (ip : List Nat) :
    valid6 pton6 ip = valid4 pton6 ip := rfl

/-- C3 (defect in the code, evaluated): `valid6` calls `inet_pton` with the
IPv4 family constant, so whatever the platform's IPv6 parser is, it rejects
the IPv6 address `"::1"` and accepts the IPv4 address `"127.0.0.1"`. -/
theorem valid6_checks_ipv4 :
    ∀ pton6 : List Nat → Int,
      valid6 pton6 (bytes "::1") = false ∧ valid6 pton6 (bytes "127.0.0.1") = true := by
  intro pton6
  have h : ∀ ip, valid6 pton6 ip = (inet_pton4 ip == 1) := by
    intro ip
    simp only [valid6, inet_pton, if_true]
  rw [h, h]
  decide

/-! ## Decimal text of a `long` -/

theorem local_array_length (junk : Nat → Nat) (size : Nat) :
    (local_array junk size).length = size := by
  simp [local_array]

theorem fmt_lf_length_pos (d : Double) : 0 < (fmt_lf d).length := by
  simp [fmt_lf]

theorem snprintf_snd (buf : List Nat) (size : Nat) (text : List Nat) :
    (snprintf buf size text).2 = (text.length : Int) := by
  unfold snprintf
  split <;> rfl

theorem snprintf_length (buf : List Nat) (size : Nat) (text : List Nat)
    (h : buf.length = size) : (snprintf buf size text).1.length = size := by
  unfold snprintf
  split
  · exact h
  · simp only [List.length_append, List.length_take, List.length_drop, List.length_singleton]
    omega

theorem senddouble_args_count (junk : Nat → Nat) (d : Double)
    (h : (fmt_lf d).length < 2 ^ 63) :
    ∃ num, senddouble_args junk d = some (num, (fmt_lf d).length + 1) ∧ num.length = 50 := by
  have hpos := fmt_lf_length_pos d
  have hp : ((fmt_lf d).length : Int) > 0 := by omega
  have hsz : to_size_t (((fmt_lf d).length : Int) + 1) = (fmt_lf d).length + 1 := by
    rw [to_size_t_of_range _ (by omega) (by
      have : (SIZE_MAX : Int) = 2 ^ 64 - 1 := by decide
      omega)]
    omega
  refine ⟨(snprintf (local_array junk 50) 50 (fmt_lf d)).1, ?_, ?_⟩
  · simp only [senddouble_args, snprintf_snd, hp, hsz, if_true]
  · exact snprintf_length _ _ _ (local_array_length junk 50)

/-- C10 (defect in the code, evaluated): the finite double `2 ^ 200`
(significand `2 ^ 52`, exponent 148) prints in `%lf` format as 61 integer
digits, a point and six zeros, 68 characters; `snprintf` returns 68 and
`senddouble` passes the byte count 69 to `sendall` together with the 50-byte
buffer `num`, so `send` is asked to read 19 bytes past its end. -/
theorem senddouble_count_exceeds_buffer :
    Double.finite ⟨false, 2 ^ 52, 148⟩ ∧
    (fmt_lf ⟨false, 2 ^ 52, 148⟩).length = 68 ∧
    (∀ junk : Nat → Nat, ∃ num,
      senddouble_args junk ⟨false, 2 ^ 52, 148⟩ = some (num, 69) ∧ num.length = 50) ∧
    senddouble sendWhole 1 0 (fun _ => 0) ⟨false, 2 ^ 52, 148⟩ =
      some ⟨69, [⟨0, 69, 69⟩], 1⟩ ∧
    ¬ (69 ≤ 50) := by
  have hlen : (fmt_lf ⟨false, 2 ^ 52, 148⟩).length = 68 := by decide
  refine ⟨by unfold Double.finite; decide, hlen, ?_, by decide, by decide⟩
  intro junk
  obtain ⟨num, h1, h2⟩ := senddouble_args_count junk ⟨false, 2 ^ 52, 148⟩ (by rw [hlen]; decide)
  rw [hlen] at h1
  exact ⟨num, h1, h2⟩

/-! ## `sendfs` -/

theorem sendAtMost_ok (cap : Nat) (h : 0 < cap) : SendOK (sendAtMost cap) := by
  intro k len hl
  simp only [sendAtMost]
  split <;> omega

theorem chunk_sizes_zero : chunk_sizes 0 = [] := by
  simp [chunk_sizes]

theorem chunk_sizes_step (L : Nat) (h : 0 < L) :
    chunk_sizes L = min FCHUNKSIZE L :: chunk_sizes (L - FCHUNKSIZE) := by
  have hcs : FCHUNKSIZE = 1024 := rfl
  by_cases hbig : FCHUNKSIZE ≤ L
  · have hdiv : L / FCHUNKSIZE = (L - FCHUNKSIZE) / FCHUNKSIZE + 1 := by
      rw [hcs]
      omega
    have hmod : (L - FCHUNKSIZE) % FCHUNKSIZE = L % FCHUNKSIZE := by
      rw [hcs]
      omega
    have hmin : min FCHUNKSIZE L = FCHUNKSIZE := Nat.min_eq_left hbig
    simp only [chunk_sizes, hmod, hmin]
    rw [hdiv, List.replicate_succ, List.cons_append]
  · have hdiv : L / FCHUNKSIZE = 0 := by
      rw [hcs]
      omega
    have hmod : L % FCHUNKSIZE = L := by
      rw [hcs]
      omega
    have hsub : L - FCHUNKSIZE = 0 := by omega
    have hmin : min FCHUNKSIZE L = L := Nat.min_eq_right (by omega)
    have hne : ¬ (L = 0) := by omega
    rw [hsub, chunk_sizes_zero, hmin]
    simp only [chunk_sizes, hdiv, hmod, hne, if_false, List.replicate_zero, List.nil_append]

theorem sendfs_loop_ok (send : Nat → Nat → Int) (hs : SendOK send) (fuel : Nat)
    (hf : FCHUNKSIZE ≤ fuel) :
    ∀ (g k sent : Nat) (block fs : List Nat), fs.length ≤ g → sent + fs.length ≤ SIZE_MAX →
      ∃ chunks next,
        sendfs_loop send fuel g k sent block fs = some ⟨sent + fs.length, chunks, next⟩ ∧
        Threaded k chunks next ∧
        (∀ c ∈ chunks, 1 ≤ c.n ∧ c.n ≤ FCHUNKSIZE ∧
          sendall send fuel c.start (some c.buf) c.n = some c.out ∧
          c.out.ret = c.n ∧ Chained c.n 0 c.out.calls) ∧
        chunks.map (fun c => c.n) = chunk_sizes fs.length ∧
        chunks.flatMap (fun c => c.buf.take c.n) = fs ∧
        chunks.flatMap (fun c => sentBytes c.buf c.out.calls) = fs := by
  have hsm : SIZE_MAX = 18446744073709551615 := by decide
  have hcs : FCHUNKSIZE = 1024 := rfl
  intro g
  induction g with
  | zero =>
    intro k sent block fs hg _
    have hnil : fs = [] := List.length_eq_zero.mp (by omega)
    subst hnil
    exact ⟨[], k, by simp [sendfs_loop], rfl, by simp, by simp [chunk_sizes_zero], by simp,
      by simp⟩
  | succ g ih =>
    intro k sent block fs hg hsz
    by_cases hnil : fs = []
    · subst hnil
      exact ⟨[], k, by simp [sendfs_loop], rfl, by simp, by simp [chunk_sizes_zero], by simp,
        by simp⟩
    · have hlen : 0 < fs.length := List.length_pos.mpr hnil
      have hfres : (fs.take FCHUNKSIZE).length = min FCHUNKSIZE fs.length := List.length_take _ _
      have hpos : (fs.take FCHUNKSIZE).length > 0 := by omega
      obtain ⟨calls, hrun, hchain, hsent⟩ := sendall_ok_small send hs
        (fs.take FCHUNKSIZE ++ block.drop (fs.take FCHUNKSIZE).length)
        (fs.take FCHUNKSIZE).length fuel k (by unfold INT_MAX; omega) (by omega)
      have hmod : (sent + (fs.take FCHUNKSIZE).length) % 2 ^ 64 =
          sent + (fs.take FCHUNKSIZE).length := Nat.mod_eq_of_lt (by omega)
      have hdl : (fs.drop FCHUNKSIZE).length = fs.length - FCHUNKSIZE := List.length_drop _ _
      obtain ⟨chunks, next, hrec, hthr, hb, hsizes, hcat, hwire⟩ := ih (k + calls.length)
        (sent + (fs.take FCHUNKSIZE).length)
        (fs.take FCHUNKSIZE ++ block.drop (fs.take FCHUNKSIZE).length)
        (fs.drop FCHUNKSIZE) (by omega) (by omega)
      have hne : ¬ ((fs.take FCHUNKSIZE).length = SIZE_MAX) := by omega
      have hsum : sent + (fs.take FCHUNKSIZE).length + (fs.drop FCHUNKSIZE).length =
          sent + fs.length := by omega
      have htk : (fs.take FCHUNKSIZE ++ block.drop (fs.take FCHUNKSIZE).length).take
          (fs.take FCHUNKSIZE).length = fs.take FCHUNKSIZE := List.take_left' rfl
      refine ⟨⟨fs.take FCHUNKSIZE ++ block.drop (fs.take FCHUNKSIZE).length,
        (fs.take FCHUNKSIZE).length, k,
        ⟨(fs.take FCHUNKSIZE).length, calls, k + calls.length⟩⟩ :: chunks, next,
        ?_, ?_, ?_, ?_, ?_, ?_⟩
      · simp only [sendfs_loop, hpos, if_true, hrun, hne, if_false, hmod, hrec, hsum]
      · exact ⟨rfl, hthr⟩
      · intro c hc
        rcases List.mem_cons.mp hc with h1 | h1
        · subst h1
          exact ⟨by simp only; omega, by simp only; omega, hrun, rfl, hchain⟩
        · exact hb c h1
      · simp only [List.map_cons, hsizes, hdl]
        rw [chunk_sizes_step fs.length hlen, hfres]
      · simp only [List.flatMap_cons, hcat]
        rw [htk]
        exact List.take_append_drop _ _
      · simp only [List.flatMap_cons, hwire]
        rw [hsent, htk]
        exact List.take_append_drop _ _

/-- C7: for a non-NULL stream with `L` bytes remaining (`L` representable as
`size_t`) and a `send` that never fails, `sendfs` returns `L`.  Its `sendall`
calls use the socket one after the other; each of them is a real call of
`sendall` on the block read by `fread`, receives between 1 and 1024 bytes and
returns that number, its `send` calls being chained over the chunk; the chunk
sizes are 1024, ..., 1024 and the remainder; the chunks handed to `sendall`,
and likewise the bytes accepted by `send`, concatenated in call order are the
remaining bytes of the stream.  For an empty stream there is no `sendall` call
and the result is 0. -/
theorem sendfs_streams_in_chunks (send : Nat → Nat → Int) (fuel k : Nat) (junk : Nat → Nat)
    (fs : List Nat) (hs : SendOK send) (hL : fs.length ≤ SIZE_MAX)
    (hf : fs.length + FCHUNKSIZE ≤ fuel) :
    (∃ chunks next,
      sendfs send fuel k junk (some fs) = some ⟨fs.length, chunks, next⟩ ∧
      Threaded k chunks next ∧
      (∀ c ∈ chunks, 1 ≤ c.n ∧ c.n ≤ FCHUNKSIZE ∧
        sendall send fuel c.start (some c.buf) c.n = some c.out ∧
        c.out.ret = c.n ∧ Chained c.n 0 c.out.calls) ∧
      chunks.map (fun c => c.n) = chunk_sizes fs.length ∧
      chunks.flatMap (fun c => c.buf.take c.n) = fs ∧
      chunks.flatMap (fun c => sentBytes c.buf c.out.calls) = fs) ∧
    sendfs send fuel k junk (some []) = some ⟨0, [], k⟩ := by
  constructor
  · obtain ⟨chunks, next, h1, h2, h3, h4, h5, h6⟩ := sendfs_loop_ok send hs fuel (by omega)
      fuel k 0 (local_array junk FCHUNKSIZE) fs (by omega) (by omega)
    refine ⟨chunks, next, ?_, h2, h3, h4, h5, h6⟩
    simp only [sendfs, h1]
    simp
  · cases fuel <;> simp [sendfs, sendfs_loop]

/-- Witness for C7: a stream with 2500 bytes still to be read (chunks of
1024, 1024 and 452 bytes) on a socket whose `send` accepts at most 600 bytes
per call, so that every full chunk needs two `send` calls. -/
theorem sendfs_streams_in_chunks_witness :
    (∃ chunks next,
      sendfs (sendAtMost 600) 4000 0 (fun i => i % 256) (some (List.range 2500)) =
        some ⟨(List.range 2500).length, chunks, next⟩ ∧
      Threaded 0 chunks next ∧
      (∀ c ∈ chunks, 1 ≤ c.n ∧ c.n ≤ FCHUNKSIZE ∧
        sendall (sendAtMost 600) 4000 c.start (some c.buf) c.n = some c.out ∧
        c.out.ret = c.n ∧ Chained c.n 0 c.out.calls) ∧
      chunks.map (fun c => c.n) = chunk_sizes (List.range 2500).length ∧
      chunks.flatMap (fun c => c.buf.take c.n) = List.range 2500 ∧
      chunks.flatMap (fun c => sentBytes c.buf c.out.calls) = List.range 2500) ∧
    sendfs (sendAtMost 600) 4000 0 (fun i => i % 256) (some []) = some ⟨0, [], 0⟩ :=
  sendfs_streams_in_chunks (sendAtMost 600) 4000 0 (fun i => i % 256) (List.range 2500)
    (sendAtMost_ok 600 (by decide)) (by rw [List.length_range]; decide)
    (by rw [List.length_range]; decide)

/-- The chunk sizes of a 2500-byte stream. -/
theorem chunk_sizes_eval : chunk_sizes 2500 = [1024, 1024, 452] := by decide

/-- A failing `send` ends `sendfs` at once with `SIZE_MAX`: here the second
`send` call fails, and the one `sendall` call that was made (3 bytes, starting
on a fresh socket) is the last. -/
theorem sendfs_eval_failure :
    (sendfs (fun k len => if k = 1 then -1 else min (len : Int) 2) 9 0 (fun _ => 0)
        (some [1, 2, 3])).map
        (fun r => (r.ret, r.next, r.chunks.map (fun c => (c.n, c.start, c.out)))) =
      some (SIZE_MAX, 2, [(3, 0, ⟨SIZE_MAX, [⟨0, 3, 2⟩, ⟨2, 1, -1⟩], 2⟩)]) := by
  decide

/-! ## More on `sendall`: the failure paths -/

/-- A `send` call whose result reads as `-1` in `sendres` is the last call
`sendall` makes, and the result is then `SIZE_MAX`. -/
theorem sendall_loop_stops_at_error (send : Nat → Nat → Int) (n : Nat) :
    ∀ (fuel k curr left : Nat) (out : SendallResult),
      sendall_loop send n fuel k curr left = some out →
      ∀ (i : Nat) (c : SendCall), out.calls[i]? = some c → to_int c.res = -1 →
        i + 1 = out.calls.length ∧ out.ret = SIZE_MAX := by
  intro fuel
  induction fuel with
  | zero =>
    intro k curr left out h i c hc _
    simp only [sendall_loop] at h
    split at h
    · simp at h
    · simp only [Option.some.injEq] at h
      subst h
      simp at hc
  | succ fuel ih =>
    intro k curr left out h i c hc hm
    simp only [sendall_loop] at h
    split at h
    · split at h
      · next herr =>
        simp only [Option.some.injEq] at h
        subst h
        cases i with
        | zero => simp
        | succ i => simp at hc
      · next hok =>
        split at h
        · simp at h
        · next out2 hrec =>
          simp only [Option.some.injEq] at h
          subst h
          cases i with
          | zero =>
            simp only [List.getElem?_cons_zero, Option.some.injEq] at hc
            subst hc
            exact absurd hm hok
          | succ i =>
            simp only [List.getElem?_cons_succ] at hc
            obtain ⟨h1, h2⟩ := ih _ _ _ _ hrec i c hc hm
            exact ⟨by simp only [List.length_cons]; omega, h2⟩
    · simp only [Option.some.injEq] at h
      subst h
      simp at hc

/-- On well-formed `send` results that fit an `int`, and for `n < SIZE_MAX`, a
`SIZE_MAX` result of the loop means that its last `send` call returned `-1`. -/
theorem sendall_loop_error_only (send : Nat → Nat → Int) (hs : SendSane send) (n : Nat)
    (hn : n < SIZE_MAX) :
    ∀ (fuel k curr left : Nat) (out : SendallResult), curr + left = n →
      sendall_loop send n fuel k curr left = some out → out.ret = SIZE_MAX →
      ∃ c ∈ out.calls, c.res = -1 := by
  have hsm : SIZE_MAX = 18446744073709551615 := by decide
  intro fuel
  induction fuel with
  | zero =>
    intro k curr left out hinv h hret
    simp only [sendall_loop] at h
    split at h
    · simp at h
    · simp only [Option.some.injEq] at h
      subst h
      simp only at hret
      omega
  | succ fuel ih =>
    intro k curr left out hinv h hret
    simp only [sendall_loop] at h
    split at h
    · next hlt =>
      rcases hs k left with hm | ⟨h0, h1, h2⟩
      · have hti : to_int (send k left) = -1 := by rw [hm]; decide
        simp only [hti, if_true, Option.some.injEq] at h
        subst h
        exact ⟨_, List.mem_singleton.mpr rfl, hm⟩
      · have hti : to_int (send k left) = send k left := to_int_of_range _ (by omega) h2
        have hne : ¬ (send k left = -1) := by omega
        have hc : to_size_t ((curr : Int) + send k left) = curr + (send k left).toNat := by
          rw [to_size_t_of_range _ (by omega) (by
            have : (SIZE_MAX : Int) = 2 ^ 64 - 1 := by decide
            omega)]
          omega
        have hl2 : to_size_t ((left : Int) - send k left) = left - (send k left).toNat := by
          rw [to_size_t_of_range _ (by omega) (by
            have : (SIZE_MAX : Int) = 2 ^ 64 - 1 := by decide
            omega)]
          omega
        simp only [hti, hne, if_false, hc, hl2] at h
        split at h
        · simp at h
        · next out2 hrec =>
          simp only [Option.some.injEq] at h
          subst h
          obtain ⟨c, hmem, hres⟩ := ih _ _ _ out2 (by omega) hrec hret
          exact ⟨c, List.mem_cons_of_mem _ hmem, hres⟩
    · simp only [Option.some.injEq] at h
      subst h
      simp only at hret
      omega

/-! ## More on `clrfds` and `prompt_int` -/

/-- What `clrfds` does: it adds the descriptors `fds[0..n)` to the set and
keeps everything the set held before. -/
theorem clrfds_adds (s : fd_set) (hs : s.fds_bits.length = 16) (fds : List Int) (n : Nat)
    (d : Int) (hn : n ≤ fds.length)
    (hr : ∀ x ∈ fds.take n, 0 ≤ x ∧ x < (FD_SETSIZE : Int))
    (hd : 0 ≤ d ∧ d < (FD_SETSIZE : Int)) :
    ∃ s2, clrfds (some s) (some fds) n = some s2 ∧
      (FD_ISSET d s2 = true ↔ FD_ISSET d s = true ∨ d ∈ fds.take n) := by
  refine ⟨set_all fds n s, rfl, ?_⟩
  have hr2 : ∀ i : Nat, i < n → 0 ≤ fds.getD i 0 ∧ fds.getD i 0 < (FD_SETSIZE : Int) :=
    fun i hi => hr _ ((exists_getD_iff_mem_take fds n hn _).mp ⟨i, hi, rfl⟩)
  rw [FD_ISSET_set_all fds d hd n s hs hr2, exists_getD_iff_mem_take fds n hn d]

/-- When the first number read lies within the (ordered) bounds, `prompt_int`
returns it at once, whatever the fuel. -/
theorem prompt_int_returns_first (fuel : Nat) (msg : List Nat) (low up : Int) (io : Stdio)
    (hlu : low ≤ up)
    (h1 : low ≤ (fscanf_ld (wrap_long (low - 1)) io.stdin).1)
    (h2 : (fscanf_ld (wrap_long (low - 1)) io.stdin).1 ≤ up) :
    prompt_int fuel msg low up io =
      some ((fscanf_ld (wrap_long (low - 1)) io.stdin).1,
        ⟨(fscanf_ld (wrap_long (low - 1)) io.stdin).2, io.stdout ++ msg⟩) := by
  have hnlt : ¬ (up < low) := by omega
  have hc : ¬ ((fscanf_ld (wrap_long (low - 1)) io.stdin).1 < low ∨
      (fscanf_ld (wrap_long (low - 1)) io.stdin).1 > up) := by omega
  cases fuel <;> simp only [prompt_int, hnlt, if_false, prompt_int_loop, hc]

/-! ## Evaluations -/

theorem dec_digits_eval : dec_digits 1230 = [49, 50, 51, 48] := by decide

theorem fmt_ld_eval : fmt_ld (-9223372036854775808) = bytes "-9223372036854775808" := by
  decide

theorem fscanf_ld_eval : fscanf_ld 0 (bytes "  -12x") = (-12, bytes "x") := by decide

theorem sendall_eval :
    sendall (fun k _ => if k = 1 then -1 else 2) 9 0 (some [1, 2, 3, 4, 5]) 5 =
      some ⟨SIZE_MAX, [⟨0, 5, 2⟩, ⟨2, 3, -1⟩], 2⟩ := by decide

theorem inet_pton4_eval :
    inet_pton4 (bytes "255.255.255.255") = 1 ∧ inet_pton4 (bytes "256.1.1.1") = 0 ∧
      inet_pton4 (bytes "1.2.3") = 0 ∧ inet_pton4 (bytes "1.2.3.4.5") = 0 ∧
      inet_pton4 (bytes "01.2.3.4") = 0 ∧ inet_pton4 (bytes "1.2.3.4.") = 0 ∧
      inet_pton4 (bytes "1..3.4") = 0 ∧ inet_pton4 (bytes "") = 0 := by decide

theorem fmt_lf_eval :
    fmt_lf ⟨true, 3, -1⟩ = bytes "-1.500000" ∧ fmt_lf ⟨false, 5, -4⟩ = bytes "0.312500" ∧
      fmt_lf ⟨false, 1, -7⟩ = bytes "0.007812" ∧ fmt_lf ⟨false, 3, -7⟩ = bytes "0.023438" ∧
      fmt_lf ⟨false, 0, 0⟩ = bytes "0.000000" ∧ fmt_lf ⟨false, 10, 0⟩ = bytes "10.000000" := by
  decide

end Netutil
